import Mathlib

/-!
Verification development for the abnormal-file-hub repository: a
content-addressable deduplicating file catalog behind a React front end.
The repository's visible source is the front end (fileService.ts,
FileList.tsx, FileSearch, FileUpload, types/file.ts); the catalog core
(ContentHasher, DedupEngine, CatalogStore, QueryEngine, StatsAggregator)
is specified but not shipped, so it is modelled here from the spec, while
the front-end helpers (query-parameter building, download-filename logic,
formatBytes) are translated directly from the TypeScript source.
-/

namespace FileHub

/-- Modelled from the spec: the ContentHasher (spec section 4.1, not shipped
in src/) is a deterministic, collision-resistant, content-only hash; the
model realises it as the injective function that keeps the byte sequence
itself as the digest, which is deterministic and depends only on the bytes,
never on filename or metadata. -/
def contentHash (bytes : List Nat) : List Nat := bytes

/-- One catalog row per upload event (spec section 3, FileRecord; mirrors the
`File` interface in frontend/src/types/file.ts, with `content_hash` for the
`file_hash` field and `storage_handle` for the `file` blob reference). -/
structure FileRecord where
  id : Nat
  original_filename : String
  file_type : String
  size : Nat
  content_hash : List Nat
  uploaded_at : Nat
  storage_handle : List Nat
  is_duplicate : Bool
  original_file : Option Nat
deriving Repr, DecidableEq

/-- The aggregate maintained by the StatsAggregator (spec section 3,
StorageStats; mirrors the `StorageStats` interface in types/file.ts, the
percentage being derived from the other fields). -/
structure StorageStats where
  total_files : Nat
  total_unique_files : Nat
  total_storage_used : Nat
  total_storage_saved : Nat
  last_updated : Nat
deriving Repr, DecidableEq

/-- Modelled from the spec: the CatalogStore plus the BlobStore collaborator
(spec sections 2 and 4.3, not shipped in src/).  Records are kept in
insertion order; blobs are an association list from storage handle to stored
bytes. -/
structure CatalogState where
  records : List FileRecord
  blobs : List (List Nat × List Nat)
  stats : StorageStats
  nextId : Nat
  clock : Nat
deriving Repr, DecidableEq

def initStats : StorageStats :=
  { total_files := 0, total_unique_files := 0, total_storage_used := 0
    total_storage_saved := 0, last_updated := 0 }

def initState : CatalogState :=
  { records := [], blobs := [], stats := initStats, nextId := 0, clock := 0 }

/-- Modelled from the spec: `findByHash` of the CatalogStore (spec
section 4.3): the earliest FileRecord with the given content hash, if
any. -/
def findByHash (recs : List FileRecord) (h : List Nat) : Option FileRecord :=
  recs.find? (fun r => r.content_hash == h)

/-- JavaScript `String.prototype.split` with a one-character separator, over
the character list: `"a;b;".split(";")` gives `["a","b",""]` and
`"".split(";")` gives `[""]`. -/
def splitOnChar (sep : Char) : List Char → List (List Char)
  | [] => [[]]
  | c :: rest =>
    if c = sep then [] :: splitOnChar sep rest
    else
      match splitOnChar sep rest with
      | [] => [[c]]
      | g :: gs => (c :: g) :: gs

/-- Modelled from the spec: `file_type` is derived from the filename
extension at upload time (spec section 3). -/
def fileTypeOf (name : String) : String :=
  let ps := splitOnChar '.' name.toList
  if ps.length ≤ 1 then "unknown" else String.mk (ps.getLastD [])

inductive IngestError where
  | storageError
  | duplicateRaceRetry
deriving Repr, DecidableEq

inductive DeleteError where
  | notFound
deriving Repr, DecidableEq

/-- Modelled from the spec: one attempt of DedupEngine.ingest, missing from src/
(spec section 4.2).  `view` is the snapshot of the catalog read at step 2
(it differs from `st.records` only when a concurrent first-writer races);
`blobOk` tells whether the BlobStore write succeeds.  The first-writer path
re-checks the live catalog (the uniqueness constraint on the content hash)
and fails internally with `duplicateRaceRetry` when it lost the race; a
failed attempt commits nothing (stage-then-commit). -/
def tryIngest (st : CatalogState) (bytes : List Nat) (filename : String)
    (view : List FileRecord) (blobOk : Bool) :
    Except IngestError (FileRecord × CatalogState) :=
  let h := contentHash bytes
  match findByHash view h with
  | some orig =>
    let r : FileRecord :=
      { id := st.nextId, original_filename := filename
        file_type := fileTypeOf filename, size := bytes.length
        content_hash := h, uploaded_at := st.clock
        storage_handle := orig.storage_handle, is_duplicate := true
        original_file := some orig.id }
    .ok (r, { records := st.records ++ [r], blobs := st.blobs
              stats := { total_files := st.stats.total_files + 1
                         total_unique_files := st.stats.total_unique_files
                         total_storage_used := st.stats.total_storage_used
                         total_storage_saved := st.stats.total_storage_saved + r.size
                         last_updated := st.clock }
              nextId := st.nextId + 1, clock := st.clock + 1 })
  | none =>
    if blobOk then
      match findByHash st.records h with
      | some _ => .error .duplicateRaceRetry
      | none =>
        let r : FileRecord :=
          { id := st.nextId, original_filename := filename
            file_type := fileTypeOf filename, size := bytes.length
            content_hash := h, uploaded_at := st.clock
            storage_handle := h, is_duplicate := false
            original_file := none }
        .ok (r, { records := st.records ++ [r], blobs := st.blobs ++ [(h, bytes)]
                  stats := { total_files := st.stats.total_files + 1
                             total_unique_files := st.stats.total_unique_files + 1
                             total_storage_used := st.stats.total_storage_used + r.size
                             total_storage_saved := st.stats.total_storage_saved
                             last_updated := st.clock }
                  nextId := st.nextId + 1, clock := st.clock + 1 })
    else .error .storageError

/-- Sequential ingest: the catalog snapshot read at step 2 is the live
catalog. -/
def ingest (st : CatalogState) (bytes : List Nat) (filename : String)
    (blobOk : Bool) : Except IngestError (FileRecord × CatalogState) :=
  tryIngest st bytes filename st.records blobOk

/-- Modelled from the spec: the retry wrapper of spec section 7 — a loser of
the first-writer race re-resolves against the live catalog as a duplicate
instead of surfacing `DuplicateRaceRetry` to the caller. -/
def ingestRetrying (st : CatalogState) (bytes : List Nat) (filename : String)
    (view : List FileRecord) (blobOk : Bool) :
    Except IngestError (FileRecord × CatalogState) :=
  match tryIngest st bytes filename view blobOk with
  | .error .duplicateRaceRetry => ingest st bytes filename blobOk
  | r => r

/-- The repointing step of spec section 4.3: within the hash class `H`, the
designated new original `nid` loses its `original_file` pointer and every
other record of the class is repointed to `nid`; records outside the class
are untouched. -/
def repoint (H : List Nat) (nid : Nat) (x : FileRecord) : FileRecord :=
  if x.content_hash == H then
    (if x.id == nid then { x with original_file := none }
     else { x with original_file := some nid })
  else x

/-- Modelled from the spec: CatalogStore.delete with its reconciliation, missing from src/
(spec section 4.3).  If the deleted record was the designated original of its
hash and other records with that hash remain, the earliest survivor becomes
the new original (`original_file := none`) and all other records of that
hash are repointed to it; if no record with that hash remains, the physical
payload is deleted from the BlobStore.  Stats are updated in the same
transaction (spec section 3, lifecycle). -/
def deleteRecord (st : CatalogState) (i : Nat) :
    Except DeleteError CatalogState :=
  match st.records.find? (fun r => r.id == i) with
  | none => .error .notFound
  | some r =>
    let rest := st.records.filter (fun x => !(x.id == i))
    let cls := rest.filter (fun x => x.content_hash == r.content_hash)
    match cls.head? with
    | none =>
      .ok { records := rest
            blobs := st.blobs.filter (fun p => !(p.1 == r.content_hash))
            stats := { total_files := st.stats.total_files - 1
                       total_unique_files := st.stats.total_unique_files - 1
                       total_storage_used := st.stats.total_storage_used - r.size
                       total_storage_saved := st.stats.total_storage_saved
                       last_updated := st.clock }
            nextId := st.nextId, clock := st.clock + 1 }
    | some newOrig =>
      let records' :=
        if r.original_file.isNone then rest.map (repoint r.content_hash newOrig.id)
        else rest
      .ok { records := records', blobs := st.blobs
            stats := { total_files := st.stats.total_files - 1
                       total_unique_files := st.stats.total_unique_files
                       total_storage_used := st.stats.total_storage_used
                       total_storage_saved := st.stats.total_storage_saved - r.size
                       last_updated := st.clock }
            nextId := st.nextId, clock := st.clock + 1 }

/-- Modelled from the spec: download by id (spec section 6, server side not
in src/): look the record up in the catalog, then read its payload from the
BlobStore through `storage_handle`. -/
def download (st : CatalogState) (i : Nat) : Option (List Nat) :=
  match st.records.find? (fun r => r.id == i) with
  | none => none
  | some r => (st.blobs.find? (fun p => p.1 == r.storage_handle)).map Prod.snd

/-- The content hashes referenced by a catalog, in record order. -/
def hashesOf (recs : List FileRecord) : List (List Nat) :=
  recs.map (·.content_hash)

/-- The duplicate-chain discipline of spec section 4.3: within each content
hash class the earliest record is the designated original
(`original_file = none`) and every other record points to it. -/
def OriginalOk (h : List Nat) (recs : List FileRecord) : Prop :=
  match recs.filter (fun r => r.content_hash == h) with
  | [] => True
  | first :: others =>
      first.original_file = none ∧ ∀ r ∈ others, r.original_file = some first.id

/-- The well-formedness invariant of the catalog: unique ids below the id
counter, record fields consistent with the modelled hash, the BlobStore in
bijection with the live content hashes, the stats aggregate equal to its
specified derived values, and the duplicate chains well shaped. -/
structure WF (st : CatalogState) : Prop where
  idsNodup : (st.records.map (·.id)).Nodup
  idsLt : ∀ r ∈ st.records, r.id < st.nextId
  sizeEq : ∀ r ∈ st.records, r.size = r.content_hash.length
  handleEq : ∀ r ∈ st.records, r.storage_handle = r.content_hash
  blobKeysNodup : (st.blobs.map Prod.fst).Nodup
  blobContent : ∀ p ∈ st.blobs, p.2 = p.1
  blobIff : ∀ h, h ∈ st.blobs.map Prod.fst ↔ h ∈ hashesOf st.records
  statFiles : st.stats.total_files = st.records.length
  statUnique : st.stats.total_unique_files = (hashesOf st.records).toFinset.card
  statUsed : st.stats.total_storage_used
      = ∑ h ∈ (hashesOf st.records).toFinset, h.length
  statSum : st.stats.total_storage_used + st.stats.total_storage_saved
      = (st.records.map (·.size)).sum
  origOk : ∀ h, OriginalOk h st.records

/-- The states reachable from the empty catalog by completed sequential
mutations. -/
inductive Reachable : CatalogState → Prop where
  | initial : Reachable initState
  | ingestStep (st : CatalogState) (bytes : List Nat) (fn : String)
      (ok : Bool) (r : FileRecord) (st' : CatalogState) :
      Reachable st → ingest st bytes fn ok = .ok (r, st') → Reachable st'
  | deleteStep (st : CatalogState) (i : Nat) (st' : CatalogState) :
      Reachable st → deleteRecord st i = .ok st' → Reachable st'

/-- Modelled from the spec: `storage_saved_percentage` (spec section 3):
saved over total logical bytes, as a percentage; 0 when the denominator
is 0. -/
def storageSavedPercentage (s : StorageStats) : ℚ :=
  if s.total_storage_used + s.total_storage_saved = 0 then 0
  else (s.total_storage_saved : ℚ)
    / ((s.total_storage_used : ℚ) + (s.total_storage_saved : ℚ)) * 100

def toLowerStr (s : String) : String := s.map Char.toLower

/-- Case-insensitive substring match (spec section 4.4, `search`). -/
def containsCI (hay needle : String) : Bool :=
  decide ((toLowerStr needle).toList <:+: (toLowerStr hay).toList)

/-- Modelled from the spec: the FilterQuery of spec section 4.4 (mirrors the
`FileFilter` interface of types/file.ts on the server side).  The model keeps
day-granular dates as the same `Nat` timeline as `uploaded_at`. -/
structure FilterQuery where
  search : Option String := none
  fileType : Option String := none
  minSize : Option Nat := none
  maxSize : Option Nat := none
  startDate : Option Nat := none
  endDate : Option Nat := none
  isDuplicate : Option Bool := none
  ordering : Option String := none
deriving Repr, DecidableEq

/-- An absent filter field passes every record; a present one imposes its
test. -/
def passes {γ : Type _} (o : Option γ) (f : γ → Bool) : Bool :=
  match o with
  | none => true
  | some a => f a

/-- Modelled from the spec: the conjunction of all present FilterQuery
fields (spec section 4.4): each absent field passes, each present field must
hold. -/
def matchesFilter (q : FilterQuery) (r : FileRecord) : Bool :=
  passes q.search (fun s => containsCI r.original_filename s) &&
  passes q.fileType (fun t => r.file_type == t) &&
  passes q.minSize (fun m => decide (m ≤ r.size)) &&
  passes q.maxSize (fun m => decide (r.size ≤ m)) &&
  passes q.startDate (fun d => decide (d ≤ r.uploaded_at)) &&
  passes q.endDate (fun d => decide (r.uploaded_at ≤ d)) &&
  passes q.isDuplicate (fun b => r.is_duplicate == b)

/-- Default order of spec section 4.4: `uploaded_at` descending, `id`
ascending as tie-break. -/
def defaultLe (r1 r2 : FileRecord) : Bool :=
  decide (r2.uploaded_at < r1.uploaded_at)
    || (decide (r1.uploaded_at = r2.uploaded_at) && decide (r1.id ≤ r2.id))

/-- Modelled from the spec: the `ordering` values of spec section 4.4, each
with the `id`-ascending tie-break; an absent or unrecognized value falls back
to the default order (the fall-back policy chosen for the open question of
spec section 9). -/
def orderingLe (o : Option String) (r1 r2 : FileRecord) : Bool :=
  match o with
  | some "uploaded_at" =>
      decide (r1.uploaded_at < r2.uploaded_at)
        || (decide (r1.uploaded_at = r2.uploaded_at) && decide (r1.id ≤ r2.id))
  | some "original_filename" =>
      decide (r1.original_filename < r2.original_filename)
        || (decide (r1.original_filename = r2.original_filename)
            && decide (r1.id ≤ r2.id))
  | some "-original_filename" =>
      decide (r2.original_filename < r1.original_filename)
        || (decide (r1.original_filename = r2.original_filename)
            && decide (r1.id ≤ r2.id))
  | some "size" =>
      decide (r1.size < r2.size)
        || (decide (r1.size = r2.size) && decide (r1.id ≤ r2.id))
  | some "-size" =>
      decide (r2.size < r1.size)
        || (decide (r1.size = r2.size) && decide (r1.id ≤ r2.id))
  | some "file_type" =>
      decide (r1.file_type < r2.file_type)
        || (decide (r1.file_type = r2.file_type) && decide (r1.id ≤ r2.id))
  | some "-file_type" =>
      decide (r2.file_type < r1.file_type)
        || (decide (r1.file_type = r2.file_type) && decide (r1.id ≤ r2.id))
  | _ => defaultLe r1 r2

instance orderingLeDecidable (o : Option String) :
    DecidableRel (fun a b : FileRecord => orderingLe o a b = true) :=
  fun a b => inferInstanceAs (Decidable (orderingLe o a b = true))

/-- Modelled from the spec: QueryEngine.query (spec section 4.4, not in src/): filter by
the conjunction of the present fields, then sort by the requested ordering
(stable insertion sort). -/
def query (q : FilterQuery) (st : CatalogState) : List FileRecord :=
  List.insertionSort (fun a b => orderingLe q.ordering a b = true)
    (st.records.filter (matchesFilter q))

instance stringLeDecidable :
    DecidableRel (fun a b : String => a ≤ b) :=
  fun a b => inferInstanceAs (Decidable (a ≤ b))

/-- Modelled from the spec: the `fileTypes()` facet (spec section 4.4): the
distinct `file_type` values currently present in the catalog, sorted. -/
def fileTypes (recs : List FileRecord) : List String :=
  List.insertionSort (fun a b : String => a ≤ b) ((recs.map (·.file_type)).dedup)

def dummyRecord : FileRecord :=
  { id := 0, original_filename := "", file_type := "", size := 0
    content_hash := [], uploaded_at := 0, storage_handle := []
    is_duplicate := false, original_file := none }

/-- The state after an ingest result, the caller keeping its state on
failure. -/
def afterOk (st : CatalogState)
    (res : Except IngestError (FileRecord × CatalogState)) : CatalogState :=
  match res with
  | .ok p => p.2
  | .error _ => st

/-- The record returned by an ingest result, or a default on failure. -/
def okRecord (res : Except IngestError (FileRecord × CatalogState))
    (d : FileRecord) : FileRecord :=
  match res with
  | .ok p => p.1
  | .error _ => d

/-- Ten bytes, the concrete payload of the spec section 8 scenario. -/
def bytes10 : List Nat := List.replicate 10 7

def stScenario1 : CatalogState :=
  afterOk initState (ingest initState bytes10 "a.txt" true)

def rScenario1 : FileRecord :=
  okRecord (ingest initState bytes10 "a.txt" true) dummyRecord

def stScenario2 : CatalogState :=
  afterOk stScenario1 (ingest stScenario1 bytes10 "b.txt" true)

def rScenario2 : FileRecord :=
  okRecord (ingest stScenario1 bytes10 "b.txt" true) dummyRecord

/-- The `FileFilter` interface of frontend/src/types/file.ts: the client-side
filter values, every field optional. -/
structure FileFilter where
  filename : Option String := none
  fileType : Option String := none
  minSize : Option Nat := none
  maxSize : Option Nat := none
  startDate : Option String := none
  endDate : Option String := none
  isDuplicate : Option Bool := none
  search : Option String := none
  ordering : Option String := none
deriving Repr, DecidableEq

/-- JavaScript truthiness of an optional string: absent and the empty string
are falsy. -/
def truthyStr : Option String → Bool
  | none => false
  | some s => !s.isEmpty

/-- JavaScript truthiness of an optional number restricted to the integers:
absent and 0 are falsy. -/
def truthyNat : Option Nat → Bool
  | none => false
  | some n => decide (n ≠ 0)

def boolStr : Bool → String
  | true => "true"
  | false => "false"

/-- The query-parameter list built by `fileService.getFiles`
(frontend/src/services/fileService.ts lines 8-25): every field is guarded by
a JavaScript truthiness test (`if (filters.minSize)` and so on) except
`isDuplicate`, which is guarded by `!== undefined`; parameters are appended
in the source's fixed order. -/
def getFilesParams (f : FileFilter) : List (String × String) :=
  (if truthyStr f.filename then [("filename", f.filename.getD "")] else [])
  ++ (if truthyStr f.fileType then [("file_type", f.fileType.getD "")] else [])
  ++ (if truthyNat f.minSize then
        [("min_size", toString (f.minSize.getD 0))] else [])
  ++ (if truthyNat f.maxSize then
        [("max_size", toString (f.maxSize.getD 0))] else [])
  ++ (if truthyStr f.startDate then
        [("start_date", f.startDate.getD "")] else [])
  ++ (if truthyStr f.endDate then [("end_date", f.endDate.getD "")] else [])
  ++ (match f.isDuplicate with
      | some b => [("is_duplicate", boolStr b)]
      | none => [])
  ++ (if truthyStr f.search then [("search", f.search.getD "")] else [])
  ++ (if truthyStr f.ordering then [("ordering", f.ordering.getD "")] else [])

/-- The decimal string printed by `parseFloat(x.toFixed(2))` for a
nonnegative value given as a whole number of hundredths: up to two fraction
digits, trailing zeros dropped. -/
def decimalString (m : Nat) : String :=
  let ip := m / 100
  let fr := m % 100
  if fr == 0 then toString ip
  else if fr % 10 == 0 then toString ip ++ "." ++ toString (fr / 10)
  else if fr < 10 then toString ip ++ ".0" ++ toString fr
  else toString ip ++ "." ++ toString fr

/-- The value displayed by `formatBytes` in hundredths:
`(bytes / Math.pow(1024, i)).toFixed(2)` idealized over the rationals with
round-half-up, `i = Math.floor(Math.log(bytes) / Math.log(1024))` idealized
as the exact `Nat.log 1024`. -/
def hundredthsOf (bytes : Nat) : Nat :=
  (round ((bytes : ℚ) * 100 / 1024 ^ Nat.log 1024 bytes)).toNat

/-- `formatBytes` of frontend/src/components/FileList.tsx lines 8-14,
with the real-log index and exact rational rounding as idealization of the
source's floating-point `Math.log` / `toFixed`. -/
def formatBytes (bytes : Nat) : String :=
  if bytes == 0 then "0 Bytes"
  else decimalString (hundredthsOf bytes) ++ " "
    ++ (["Bytes", "KB", "MB", "GB", "TB"].getD (Nat.log 1024 bytes) "")

/-- The first regex capture of `/\x2f([^;]+)/`: at the first `/` followed by
at least one non-`;` character, the maximal run of non-`;` characters. -/
def slashCapture : List Char → Option (List Char)
  | [] => none
  | c :: rest =>
    if c = '/' then
      let cap := rest.takeWhile (fun d => d ≠ ';')
      if cap.isEmpty then slashCapture rest else some cap
    else slashCapture rest

/-- `getExtensionFromContentType` of
Ramakeerthi_20250405/frontend (fileService, lines 50-68): build the data-URL
string literally, take the segment after the first `/` of the part before the
first `;`; fall back to the regex capture on the content type; `none` when
neither yields a non-empty extension. -/
def getExtensionFromContentType (contentType : String) : Option String :=
  let href := "data:".toList ++ contentType.toList ++ ";base64,".toList
  let parts := splitOnChar '/' ((splitOnChar ';' href).headD [])
  let ext := parts.getD 1 []
  if ext ≠ [] then some (String.mk ('.' :: ext))
  else
    match slashCapture contentType.toList with
    | some cap => some (String.mk ('.' :: cap))
    | none => none

/-- The attachment filename chosen by `fileService.downloadFile`
(Ramakeerthi_20250405/frontend, lines 128-139): the passed filename used
unchanged when it contains a dot, otherwise the inferred extension appended
when one is found. -/
def downloadFilename (filename contentType : String) : String :=
  if filename.toList.contains '.' then filename
  else
    match getExtensionFromContentType contentType with
    | some ext => filename ++ ext
    | none => filename

section ListLemmas

variable {α : Type _} {β : Type _}

theorem find?_eq_head?_filter (p : α → Bool) (l : List α) :
    l.find? p = (l.filter p).head? := by
  induction l with
  | nil => rfl
  | cons a t ih =>
    by_cases h : p a
    · rw [List.find?_cons_of_pos _ h, List.filter_cons_of_pos h]
      rfl
    · simp only [Bool.not_eq_true] at h
      rw [List.find?_cons_of_neg _ (by simp [h]), List.filter_cons_of_neg (by simp [h]), ih]

theorem filter_ne_perm [DecidableEq β] (f : α → β) {l : List α} {r : α}
    (hn : (l.map f).Nodup) (hr : r ∈ l) :
    ((l.filter (fun x => !(f x == f r))) ++ [r]).Perm l := by
  induction l with
  | nil => cases hr
  | cons a t ih =>
    simp only [List.map_cons, List.nodup_cons] at hn
    by_cases hfa : f a = f r
    · have har : r = a := by
        rcases List.mem_cons.1 hr with h | h
        · exact h
        · exact absurd (hfa ▸ List.mem_map_of_mem f h) hn.1
      subst har
      have hkeep : t.filter (fun x => !(f x == f r)) = t := by
        refine List.filter_eq_self.2 (fun x hx => ?_)
        simp only [Bool.not_eq_eq_eq_not, Bool.not_true, beq_eq_false_iff_ne]
        intro hfx
        exact hn.1 (hfx ▸ List.mem_map_of_mem f hx)
      have hstep : (r :: t).filter (fun x => !(f x == f r)) = t := by
        rw [List.filter_cons]
        simp [hkeep]
      rw [hstep]
      exact List.perm_append_singleton r t
    · have hra : r ∈ t := by
        rcases List.mem_cons.1 hr with h | h
        · exact absurd (h ▸ rfl) hfa
        · exact h
      have : (f a == f r) = false := beq_eq_false_iff_ne.2 hfa
      simp only [List.filter_cons, this, Bool.not_false, if_pos rfl,
        List.cons_append]
      exact (ih hn.2 hra).cons a

theorem length_filter_ne [DecidableEq β] (f : α → β) {l : List α} {r : α}
    (hn : (l.map f).Nodup) (hr : r ∈ l) :
    (l.filter (fun x => !(f x == f r))).length + 1 = l.length := by
  have := (filter_ne_perm f hn hr).length_eq
  simpa using this

theorem sum_map_filter_ne [DecidableEq β] (f : α → β) (g : α → Nat)
    {l : List α} {r : α} (hn : (l.map f).Nodup) (hr : r ∈ l) :
    ((l.filter (fun x => !(f x == f r))).map g).sum + g r = (l.map g).sum := by
  have := ((filter_ne_perm f hn hr).map g).sum_eq
  simpa using this

theorem filter_comm (p q : α → Bool) (l : List α) :
    (l.filter q).filter p = (l.filter p).filter q := by
  rw [List.filter_filter, List.filter_filter]
  exact List.filter_congr (fun a _ => Bool.and_comm (p a) (q a))

theorem mem_hashesOf {recs : List FileRecord} {h : List Nat} :
    h ∈ hashesOf recs ↔ ∃ r ∈ recs, r.content_hash = h := by
  simp [hashesOf]

theorem toFinset_snoc {γ : Type _} [DecidableEq γ] (l : List γ) (b : γ) :
    (l ++ [b]).toFinset = insert b l.toFinset := by
  rw [List.toFinset_append]
  simp only [List.toFinset_cons, List.toFinset_nil, insert_emptyc_eq]
  rw [Finset.union_comm]
  rfl

theorem sum_hash_len_le (recs : List FileRecord)
    (hsz : ∀ r ∈ recs, r.size = r.content_hash.length) :
    (∑ h ∈ (hashesOf recs).toFinset, h.length) ≤ (recs.map (·.size)).sum := by
  induction recs with
  | nil => simp [hashesOf]
  | cons a t ih =>
    have ht : ∀ r ∈ t, r.size = r.content_hash.length :=
      fun r hr => hsz r (List.mem_cons_of_mem a hr)
    have ihe := ih ht
    have hins : (hashesOf (a :: t)).toFinset
        = insert a.content_hash (hashesOf t).toFinset := by
      simp [hashesOf]
    by_cases hmem : a.content_hash ∈ (hashesOf t).toFinset
    · rw [hins, Finset.insert_eq_self.2 hmem]
      simp only [List.map_cons, List.sum_cons]
      omega
    · rw [hins, Finset.sum_insert hmem]
      have := hsz a (List.mem_cons_self a t)
      simp only [List.map_cons, List.sum_cons]
      omega

end ListLemmas

theorem nodup_ids_snoc {recs : List FileRecord} {n : Nat}
    (hn : (recs.map (·.id)).Nodup) (hlt : ∀ x ∈ recs, x.id < n)
    (rr : FileRecord) (hid : rr.id = n) :
    ((recs ++ [rr]).map (·.id)).Nodup := by
  rw [List.map_append]
  refine List.Nodup.append hn (List.nodup_singleton _) ?_
  intro x hx hx2
  simp only [List.map_cons, List.map_nil, List.mem_singleton] at hx2
  obtain ⟨y, hy, hyx⟩ := List.mem_map.1 hx
  have := hlt y hy
  omega

theorem origOk_append_dup {recs : List FileRecord} {rr orig : FileRecord}
    (horig : ∀ h, OriginalOk h recs)
    (hfind : recs.find? (fun x => x.content_hash == rr.content_hash) = some orig)
    (hpoint : rr.original_file = some orig.id) :
    ∀ h, OriginalOk h (recs ++ [rr]) := by
  intro h
  unfold OriginalOk
  rw [List.filter_append]
  by_cases hh : rr.content_hash = h
  · have hfr : [rr].filter (fun x => x.content_hash == h) = [rr] := by simp [hh]
    rw [hfr]
    have hhead : (recs.filter (fun x => x.content_hash == h)).head? = some orig := by
      rw [← find?_eq_head?_filter, ← hh]
      exact hfind
    cases hcls : recs.filter (fun x => x.content_hash == h) with
    | nil => rw [hcls] at hhead; cases hhead
    | cons first others =>
      rw [hcls] at hhead
      simp only [List.head?_cons, Option.some.injEq] at hhead
      have horigOk := horig h
      unfold OriginalOk at horigOk
      rw [hcls] at horigOk
      simp only [List.cons_append]
      refine ⟨horigOk.1, fun x hx => ?_⟩
      rcases List.mem_append.1 hx with hx | hx
      · exact horigOk.2 x hx
      · simp only [List.mem_singleton] at hx
        subst hx
        rw [hpoint, hhead]
  · have hfr : [rr].filter (fun x => x.content_hash == h) = [] := by simp [hh]
    rw [hfr, List.append_nil]
    exact horig h

theorem origOk_append_new {recs : List FileRecord} {rr : FileRecord}
    (horig : ∀ h, OriginalOk h recs)
    (hfind : recs.find? (fun x => x.content_hash == rr.content_hash) = none)
    (hnone : rr.original_file = none) :
    ∀ h, OriginalOk h (recs ++ [rr]) := by
  intro h
  unfold OriginalOk
  rw [List.filter_append]
  by_cases hh : rr.content_hash = h
  · have hnilcls : recs.filter (fun x => x.content_hash == h) = [] := by
      rw [← hh]
      rw [find?_eq_head?_filter] at hfind
      exact List.head?_eq_none_iff.1 hfind
    have hfr : [rr].filter (fun x => x.content_hash == h) = [rr] := by simp [hh]
    rw [hnilcls, hfr, List.nil_append]
    exact ⟨hnone, by simp⟩
  · have hfr : [rr].filter (fun x => x.content_hash == h) = [] := by simp [hh]
    rw [hfr, List.append_nil]
    exact horig h

theorem repoint_id (H : List Nat) (nid : Nat) (x : FileRecord) :
    (repoint H nid x).id = x.id := by
  unfold repoint; split <;> (try split) <;> rfl

theorem repoint_hash (H : List Nat) (nid : Nat) (x : FileRecord) :
    (repoint H nid x).content_hash = x.content_hash := by
  unfold repoint; split <;> (try split) <;> rfl

theorem repoint_size (H : List Nat) (nid : Nat) (x : FileRecord) :
    (repoint H nid x).size = x.size := by
  unfold repoint; split <;> (try split) <;> rfl

theorem repoint_handle (H : List Nat) (nid : Nat) (x : FileRecord) :
    (repoint H nid x).storage_handle = x.storage_handle := by
  unfold repoint; split <;> (try split) <;> rfl

theorem repoint_of_hash_ne (H : List Nat) (nid : Nat) (x : FileRecord)
    (hx : x.content_hash ≠ H) : repoint H nid x = x := by
  unfold repoint
  rw [if_neg (by simpa using hx)]

theorem repoint_self (H : List Nat) (nid : Nat) (x : FileRecord)
    (hx : x.content_hash = H) (hid : x.id = nid) :
    repoint H nid x = { x with original_file := none } := by
  unfold repoint
  rw [if_pos (by simpa using hx), if_pos (by simpa using hid)]

theorem repoint_other (H : List Nat) (nid : Nat) (x : FileRecord)
    (hx : x.content_hash = H) (hid : x.id ≠ nid) :
    repoint H nid x = { x with original_file := some nid } := by
  unfold repoint
  rw [if_pos (by simpa using hx), if_neg (by simpa using hid)]

theorem filter_hash_rest_eq {recs : List FileRecord} {r0 : FileRecord}
    (hn : (recs.map (·.id)).Nodup) (hr0 : r0 ∈ recs) {h : List Nat}
    (hh : h ≠ r0.content_hash) :
    (recs.filter (fun x => !(x.id == r0.id))).filter
        (fun x => x.content_hash == h)
      = recs.filter (fun x => x.content_hash == h) := by
  rw [filter_comm]
  refine List.filter_eq_self.2 (fun x hx => ?_)
  obtain ⟨hxm, hxh⟩ := List.mem_filter.1 hx
  have hxH : x.content_hash = h := by simpa using hxh
  have hxid : x.id ≠ r0.id := by
    intro hid
    have hxr : x = r0 := List.inj_on_of_nodup_map hn hxm hr0 hid
    exact hh (by rw [← hxH, hxr])
  simpa using hxid

theorem origOk_rest_of_nonoriginal {recs : List FileRecord} {r0 : FileRecord}
    (hn : (recs.map (·.id)).Nodup) (hr0 : r0 ∈ recs)
    (horig : ∀ h, OriginalOk h recs)
    (hsome : r0.original_file ≠ none) :
    ∀ h, OriginalOk h (recs.filter (fun x => !(x.id == r0.id))) := by
  intro h
  unfold OriginalOk
  rw [filter_comm]
  cases hcls : recs.filter (fun x => x.content_hash == h) with
  | nil =>
    rw [List.filter_nil]
    trivial
  | cons first others =>
    have horigh := horig h
    unfold OriginalOk at horigh
    rw [hcls] at horigh
    have hfmem : first ∈ recs.filter (fun x => x.content_hash == h) := by
      rw [hcls]; exact List.mem_cons_self _ _
    have hfid : first.id ≠ r0.id := by
      intro hid
      have hfr : first = r0 :=
        List.inj_on_of_nodup_map hn (List.mem_of_mem_filter hfmem) hr0 hid
      exact hsome (hfr ▸ horigh.1)
    rw [List.filter_cons_of_pos (by simpa using hfid)]
    exact ⟨horigh.1, fun x hx =>
      horigh.2 x (List.mem_of_mem_filter hx)⟩

theorem wf_init : WF initState := by
  refine ⟨?_, ?_, ?_, ?_, ?_, ?_, ?_, ?_, ?_, ?_, ?_, ?_⟩ <;>
    simp [initState, initStats, hashesOf, OriginalOk]

theorem wf_ingest {st : CatalogState} {bytes : List Nat} {fn : String}
    {ok : Bool} {r : FileRecord} {st' : CatalogState}
    (hwf : WF st) (hok : ingest st bytes fn ok = .ok (r, st')) : WF st' := by
  simp only [ingest, tryIngest, findByHash, contentHash] at hok
  cases hfind : st.records.find? (fun x => x.content_hash == bytes) with
  | some orig =>
    rw [hfind] at hok
    simp only [Except.ok.injEq, Prod.mk.injEq] at hok
    obtain ⟨hr, hst⟩ := hok
    have horigmem : orig ∈ st.records := List.mem_of_find?_eq_some hfind
    have horighash : orig.content_hash = bytes := by
      have := List.find?_some hfind
      exact beq_iff_eq.1 this
    have hbmem : bytes ∈ hashesOf st.records :=
      mem_hashesOf.2 ⟨orig, horigmem, horighash⟩
    subst hst
    subst hr
    have hhashes : ∀ rr : FileRecord, rr.content_hash = bytes →
        hashesOf (st.records ++ [rr]) = hashesOf st.records ++ [bytes] := by
      intro rr hrr; simp [hashesOf, hrr]
    have hfs : (hashesOf (st.records ++
        [{ id := st.nextId, original_filename := fn, file_type := fileTypeOf fn,
           size := bytes.length, content_hash := bytes, uploaded_at := st.clock,
           storage_handle := orig.storage_handle, is_duplicate := true,
           original_file := some orig.id }])).toFinset
        = (hashesOf st.records).toFinset := by
      rw [hhashes _ rfl, toFinset_snoc]
      exact Finset.insert_eq_self.2 (List.mem_toFinset.2 hbmem)
    refine ⟨?_, ?_, ?_, ?_, ?_, ?_, ?_, ?_, ?_, ?_, ?_, ?_⟩
    · exact nodup_ids_snoc hwf.idsNodup hwf.idsLt _ rfl
    · intro x hx
      show x.id < st.nextId + 1
      rcases List.mem_append.1 hx with hx | hx
      · have := hwf.idsLt x hx; omega
      · simp only [List.mem_singleton] at hx; subst hx; simp
    · intro x hx
      rcases List.mem_append.1 hx with hx | hx
      · exact hwf.sizeEq x hx
      · simp only [List.mem_singleton] at hx; subst hx; rfl
    · intro x hx
      rcases List.mem_append.1 hx with hx | hx
      · exact hwf.handleEq x hx
      · simp only [List.mem_singleton] at hx; subst hx
        show orig.storage_handle = bytes
        rw [hwf.handleEq orig horigmem, horighash]
    · exact hwf.blobKeysNodup
    · exact hwf.blobContent
    · intro h
      rw [hhashes _ rfl]
      simp only [List.mem_append, List.mem_singleton]
      rw [show (h ∈ List.map Prod.fst st.blobs) ↔ h ∈ hashesOf st.records from hwf.blobIff h]
      constructor
      · exact fun hh => Or.inl hh
      · rintro (hh | rfl)
        · exact hh
        · exact hbmem
    · simp only [List.length_append, List.length_singleton]
      rw [hwf.statFiles]
    · rw [hfs]; exact hwf.statUnique
    · rw [hfs]; exact hwf.statUsed
    · simp only [List.map_append, List.sum_append, List.map_cons, List.map_nil,
        List.sum_cons, List.sum_nil]
      have := hwf.statSum
      omega
    · exact origOk_append_dup hwf.origOk hfind rfl
  | none =>
    rw [hfind] at hok
    cases ok with
    | false => simp at hok
    | true =>
      simp only [if_true, Except.ok.injEq, Prod.mk.injEq] at hok
      obtain ⟨hr, hst⟩ := hok
      have hnomem : bytes ∉ hashesOf st.records := by
        intro hmem
        obtain ⟨x, hx, hxh⟩ := mem_hashesOf.1 hmem
        have := List.find?_eq_none.1 hfind x hx
        simp [hxh] at this
      subst hst
      subst hr
      have hhashes : hashesOf (st.records ++
          [{ id := st.nextId, original_filename := fn, file_type := fileTypeOf fn,
             size := bytes.length, content_hash := bytes, uploaded_at := st.clock,
             storage_handle := bytes, is_duplicate := false,
             original_file := none }]) = hashesOf st.records ++ [bytes] := by
        simp [hashesOf]
      have hfs : (hashesOf (st.records ++
          [{ id := st.nextId, original_filename := fn, file_type := fileTypeOf fn,
             size := bytes.length, content_hash := bytes, uploaded_at := st.clock,
             storage_handle := bytes, is_duplicate := false,
             original_file := none }])).toFinset
          = insert bytes (hashesOf st.records).toFinset := by
        rw [hhashes, toFinset_snoc]
      have hbnotfin : bytes ∉ (hashesOf st.records).toFinset := by
        intro hc; exact hnomem (List.mem_toFinset.1 hc)
      refine ⟨?_, ?_, ?_, ?_, ?_, ?_, ?_, ?_, ?_, ?_, ?_, ?_⟩
      · exact nodup_ids_snoc hwf.idsNodup hwf.idsLt _ rfl
      · intro x hx
        show x.id < st.nextId + 1
        rcases List.mem_append.1 hx with hx | hx
        · have := hwf.idsLt x hx; omega
        · simp only [List.mem_singleton] at hx; subst hx; simp
      · intro x hx
        rcases List.mem_append.1 hx with hx | hx
        · exact hwf.sizeEq x hx
        · simp only [List.mem_singleton] at hx; subst hx; rfl
      · intro x hx
        rcases List.mem_append.1 hx with hx | hx
        · exact hwf.handleEq x hx
        · simp only [List.mem_singleton] at hx; subst hx; rfl
      · rw [List.map_append]
        refine List.Nodup.append hwf.blobKeysNodup (List.nodup_singleton _) ?_
        intro x hx hx2
        simp only [List.map_cons, List.map_nil, List.mem_singleton] at hx2
        subst hx2
        exact hnomem ((hwf.blobIff _).1 hx)
      · intro p hp
        rcases List.mem_append.1 hp with hp | hp
        · exact hwf.blobContent p hp
        · simp only [List.mem_singleton] at hp; subst hp; rfl
      · intro h
        rw [hhashes, List.map_append]
        simp only [List.mem_append, List.mem_singleton, List.map_cons,
          List.map_nil]
        rw [show (h ∈ List.map Prod.fst st.blobs) ↔ h ∈ hashesOf st.records from hwf.blobIff h]
      · simp only [List.length_append, List.length_singleton]
        rw [hwf.statFiles]
      · rw [hfs, Finset.card_insert_of_not_mem hbnotfin, hwf.statUnique]
      · rw [hfs, Finset.sum_insert hbnotfin, hwf.statUsed]
        show _ + bytes.length = _
        omega
      · simp only [List.map_append, List.sum_append, List.map_cons, List.map_nil,
          List.sum_cons, List.sum_nil]
        have := hwf.statSum
        show _ + bytes.length + _ = _
        omega
      · exact origOk_append_new hwf.origOk hfind rfl

theorem wf_delete {st : CatalogState} {i : Nat} {st' : CatalogState}
    (hwf : WF st) (hok : deleteRecord st i = .ok st') : WF st' := by
  simp only [deleteRecord] at hok
  cases hfind : st.records.find? (fun x => x.id == i) with
  | none =>
    rw [hfind] at hok
    simp at hok
  | some r0 =>
    rw [hfind] at hok
    simp only [] at hok
    have hr0mem : r0 ∈ st.records := List.mem_of_find?_eq_some hfind
    have hr0id : r0.id = i := by
      have := List.find?_some hfind
      exact beq_iff_eq.1 this
    subst hr0id
    have hidinj : ∀ x ∈ st.records, ∀ y ∈ st.records, x.id = y.id → x = y :=
      fun x hx y hy hxy => List.inj_on_of_nodup_map hwf.idsNodup hx hy hxy
    have hperm : ((st.records.filter (fun x => !(x.id == r0.id))) ++ [r0]).Perm
        st.records :=
      filter_ne_perm (fun x : FileRecord => x.id) hwf.idsNodup hr0mem
    have hrestlen : (st.records.filter (fun x => !(x.id == r0.id))).length + 1
        = st.records.length := by
      have := hperm.length_eq
      simpa using this
    have hrestsum : ((st.records.filter (fun x => !(x.id == r0.id))).map
        (·.size)).sum + r0.size = (st.records.map (·.size)).sum := by
      have := (hperm.map (fun x : FileRecord => x.size)).sum_eq
      simpa using this
    have hrestsub : ∀ x ∈ st.records.filter (fun x => !(x.id == r0.id)),
        x ∈ st.records := fun x hx => List.mem_of_mem_filter hx
    have hmemrest : ∀ x : FileRecord,
        x ∈ st.records.filter (fun y => !(y.id == r0.id))
          ↔ x ∈ st.records ∧ x.id ≠ r0.id := by
      intro x
      rw [List.mem_filter]
      simp
    cases hcls : ((st.records.filter (fun x => !(x.id == r0.id))).filter
        (fun x => x.content_hash == r0.content_hash)).head? with
    | none =>
      rw [hcls] at hok
      simp only [Except.ok.injEq] at hok
      subst hok
      have hclsnil : (st.records.filter (fun x => !(x.id == r0.id))).filter
          (fun x => x.content_hash == r0.content_hash) = [] :=
        List.head?_eq_none_iff.1 hcls
      have hnoother : ∀ x ∈ st.records, x.content_hash = r0.content_hash → x = r0 := by
        intro x hx hxh
        by_contra hne
        have hxid : x.id ≠ r0.id := fun hid => hne (hidinj x hx r0 hr0mem hid)
        have hxrest : x ∈ st.records.filter (fun y => !(y.id == r0.id)) :=
          (hmemrest x).2 ⟨hx, hxid⟩
        have hmem : x ∈ (st.records.filter (fun y => !(y.id == r0.id))).filter
            (fun y => y.content_hash == r0.content_hash) :=
          List.mem_filter.2 ⟨hxrest, by simp [hxh]⟩
        rw [hclsnil] at hmem
        cases hmem
      have hhash_iff : ∀ h,
          h ∈ hashesOf (st.records.filter (fun x => !(x.id == r0.id)))
            ↔ h ∈ hashesOf st.records ∧ h ≠ r0.content_hash := by
        intro h
        constructor
        · intro hh
          obtain ⟨x, hx, hxh⟩ := mem_hashesOf.1 hh
          obtain ⟨hxm, hxid⟩ := (hmemrest x).1 hx
          refine ⟨mem_hashesOf.2 ⟨x, hxm, hxh⟩, ?_⟩
          intro heq
          exact hxid (by rw [hnoother x hxm (hxh.trans heq)])
        · rintro ⟨hh, hne⟩
          obtain ⟨x, hx, hxh⟩ := mem_hashesOf.1 hh
          have hxne : x ≠ r0 := fun he => hne (by rw [← hxh, he])
          have hxid : x.id ≠ r0.id := fun hid => hxne (hidinj x hx r0 hr0mem hid)
          exact mem_hashesOf.2 ⟨x, (hmemrest x).2 ⟨hx, hxid⟩, hxh⟩
      have hfinseteq :
          (hashesOf (st.records.filter (fun x => !(x.id == r0.id)))).toFinset
            = ((hashesOf st.records).toFinset).erase r0.content_hash := by
        ext h
        rw [List.mem_toFinset, Finset.mem_erase, List.mem_toFinset, hhash_iff h]
        exact and_comm
      have hHfin : r0.content_hash ∈ (hashesOf st.records).toFinset :=
        List.mem_toFinset.2 (mem_hashesOf.2 ⟨r0, hr0mem, rfl⟩)
      have hsumerase : (∑ x ∈ ((hashesOf st.records).toFinset).erase
          r0.content_hash, x.length) + r0.content_hash.length
            = ∑ h ∈ (hashesOf st.records).toFinset, h.length :=
        Finset.sum_erase_add ((hashesOf st.records).toFinset)
          (fun h => h.length) hHfin
      have hsz := hwf.sizeEq r0 hr0mem
      have hused := hwf.statUsed
      have hsum := hwf.statSum
      have hfiles := hwf.statFiles
      have hkeys : ∀ h,
          h ∈ (st.blobs.filter (fun p => !(p.1 == r0.content_hash))).map Prod.fst
            ↔ h ∈ st.blobs.map Prod.fst ∧ h ≠ r0.content_hash := by
        intro h
        simp only [List.mem_map, List.mem_filter, Bool.not_eq_eq_eq_not,
          Bool.not_true, beq_eq_false_iff_ne]
        constructor
        · rintro ⟨p, ⟨hp, hne⟩, rfl⟩
          exact ⟨⟨p, hp, rfl⟩, hne⟩
        · rintro ⟨⟨p, hp, rfl⟩, hne⟩
          exact ⟨p, ⟨hp, hne⟩, rfl⟩
      refine ⟨?_, ?_, ?_, ?_, ?_, ?_, ?_, ?_, ?_, ?_, ?_, ?_⟩
      · exact ((List.filter_sublist _).map (fun x : FileRecord => x.id)).nodup hwf.idsNodup
      · exact fun x hx => hwf.idsLt x (hrestsub x hx)
      · exact fun x hx => hwf.sizeEq x (hrestsub x hx)
      · exact fun x hx => hwf.handleEq x (hrestsub x hx)
      · exact ((List.filter_sublist _).map (Prod.fst : List Nat × List Nat → List Nat)).nodup hwf.blobKeysNodup
      · exact fun p hp => hwf.blobContent p (List.mem_of_mem_filter hp)
      · intro h
        rw [hkeys h, hhash_iff h, hwf.blobIff h]
      · show st.stats.total_files - 1
            = (st.records.filter (fun x => !(x.id == r0.id))).length
        omega
      · show st.stats.total_unique_files - 1
            = (hashesOf (st.records.filter
                (fun x => !(x.id == r0.id)))).toFinset.card
        rw [hfinseteq, Finset.card_erase_of_mem hHfin, hwf.statUnique]
      · show st.stats.total_storage_used - r0.size
            = ∑ h ∈ (hashesOf (st.records.filter
                (fun x => !(x.id == r0.id)))).toFinset, h.length
        rw [hfinseteq]
        omega
      · show st.stats.total_storage_used - r0.size
            + st.stats.total_storage_saved
            = ((st.records.filter (fun x => !(x.id == r0.id))).map
                (·.size)).sum
        omega
      · intro h
        by_cases hh : h = r0.content_hash
        · subst hh
          unfold OriginalOk
          rw [hclsnil]
          trivial
        · unfold OriginalOk
          rw [filter_hash_rest_eq hwf.idsNodup hr0mem hh]
          exact hwf.origOk h
    | some newOrig =>
      rw [hcls] at hok
      have hnOcls : newOrig ∈ (st.records.filter (fun x => !(x.id == r0.id))).filter
          (fun x => x.content_hash == r0.content_hash) := by
        cases hclseq : (st.records.filter (fun x => !(x.id == r0.id))).filter
            (fun x => x.content_hash == r0.content_hash) with
        | nil => rw [hclseq] at hcls; cases hcls
        | cons c ct =>
          rw [hclseq] at hcls
          simp only [List.head?_cons, Option.some.injEq] at hcls
          rw [← hcls]
          exact List.mem_cons_self _ _
      have hnOrest : newOrig ∈ st.records.filter (fun x => !(x.id == r0.id)) :=
        List.mem_of_mem_filter hnOcls
      have hnOhash : newOrig.content_hash = r0.content_hash := by
        have := (List.mem_filter.1 hnOcls).2
        simpa using this
      have hhash_iff : ∀ h,
          h ∈ hashesOf (st.records.filter (fun x => !(x.id == r0.id)))
            ↔ h ∈ hashesOf st.records := by
        intro h
        constructor
        · intro hh
          obtain ⟨x, hx, hxh⟩ := mem_hashesOf.1 hh
          exact mem_hashesOf.2 ⟨x, hrestsub x hx, hxh⟩
        · intro hh
          obtain ⟨x, hx, hxh⟩ := mem_hashesOf.1 hh
          by_cases hxid : x.id = r0.id
          · have hxr : x = r0 := hidinj x hx r0 hr0mem hxid
            exact mem_hashesOf.2 ⟨newOrig, hnOrest, by rw [hnOhash, ← hxr, hxh]⟩
          · exact mem_hashesOf.2 ⟨x, (hmemrest x).2 ⟨hx, hxid⟩, hxh⟩
      have hfinseteq :
          (hashesOf (st.records.filter (fun x => !(x.id == r0.id)))).toFinset
            = (hashesOf st.records).toFinset := by
        ext h
        rw [List.mem_toFinset, List.mem_toFinset]
        exact hhash_iff h
      have hused_le : (∑ h ∈ (hashesOf (st.records.filter
          (fun x => !(x.id == r0.id)))).toFinset, h.length)
            ≤ ((st.records.filter (fun x => !(x.id == r0.id))).map (·.size)).sum :=
        sum_hash_len_le _ (fun x hx => hwf.sizeEq x (hrestsub x hx))
      have hused := hwf.statUsed
      have hsum := hwf.statSum
      have hfiles := hwf.statFiles
      have hsz_le_saved : r0.size ≤ st.stats.total_storage_saved := by
        rw [hfinseteq] at hused_le
        omega
      cases hro : r0.original_file with
      | some v =>
        rw [hro] at hok
        simp only [Option.isNone_some, Bool.false_eq_true, if_false,
          Except.ok.injEq] at hok
        subst hok
        refine ⟨?_, ?_, ?_, ?_, ?_, ?_, ?_, ?_, ?_, ?_, ?_, ?_⟩
        · exact ((List.filter_sublist _).map (fun x : FileRecord => x.id)).nodup hwf.idsNodup
        · exact fun x hx => hwf.idsLt x (hrestsub x hx)
        · exact fun x hx => hwf.sizeEq x (hrestsub x hx)
        · exact fun x hx => hwf.handleEq x (hrestsub x hx)
        · exact hwf.blobKeysNodup
        · exact hwf.blobContent
        · intro h
          rw [hhash_iff h]
          exact hwf.blobIff h
        · show st.stats.total_files - 1
              = (st.records.filter (fun x => !(x.id == r0.id))).length
          omega
        · show st.stats.total_unique_files
              = (hashesOf (st.records.filter
                  (fun x => !(x.id == r0.id)))).toFinset.card
          rw [hfinseteq]
          exact hwf.statUnique
        · show st.stats.total_storage_used
              = ∑ h ∈ (hashesOf (st.records.filter
                  (fun x => !(x.id == r0.id)))).toFinset, h.length
          rw [hfinseteq]
          exact hwf.statUsed
        · show st.stats.total_storage_used
              + (st.stats.total_storage_saved - r0.size)
              = ((st.records.filter (fun x => !(x.id == r0.id))).map
                  (·.size)).sum
          omega
        · exact origOk_rest_of_nonoriginal hwf.idsNodup hr0mem hwf.origOk
            (by rw [hro]; simp)
      | none =>
        rw [hro] at hok
        simp only [Option.isNone_none, if_true, Except.ok.injEq] at hok
        subst hok
        have hids_pres : ((st.records.filter (fun x => !(x.id == r0.id))).map
            (repoint r0.content_hash newOrig.id)).map (·.id)
              = (st.records.filter (fun x => !(x.id == r0.id))).map (·.id) := by
          rw [List.map_map]
          exact List.map_congr_left (fun x _ => repoint_id _ _ x)
        have hhashes_pres : hashesOf ((st.records.filter
            (fun x => !(x.id == r0.id))).map (repoint r0.content_hash newOrig.id))
              = hashesOf (st.records.filter (fun x => !(x.id == r0.id))) := by
          unfold hashesOf
          rw [List.map_map]
          exact List.map_congr_left (fun x _ => repoint_hash _ _ x)
        have hsizes_pres : (((st.records.filter (fun x => !(x.id == r0.id))).map
            (repoint r0.content_hash newOrig.id)).map (·.size))
              = (st.records.filter (fun x => !(x.id == r0.id))).map (·.size) := by
          rw [List.map_map]
          exact List.map_congr_left (fun x _ => repoint_size _ _ x)
        have hfmcomm : ∀ h : List Nat,
            ((st.records.filter (fun x => !(x.id == r0.id))).map
              (repoint r0.content_hash newOrig.id)).filter
                (fun x => x.content_hash == h)
            = ((st.records.filter (fun x => !(x.id == r0.id))).filter
                (fun x => x.content_hash == h)).map
                  (repoint r0.content_hash newOrig.id) := by
          intro h
          rw [List.filter_map]
          congr 1
          exact List.filter_congr (fun x _ => by
            simp only [Function.comp_apply, repoint_hash])
        refine ⟨?_, ?_, ?_, ?_, ?_, ?_, ?_, ?_, ?_, ?_, ?_, ?_⟩
        · rw [hids_pres]
          exact ((List.filter_sublist _).map (fun x : FileRecord => x.id)).nodup hwf.idsNodup
        · intro x hx
          obtain ⟨y, hy, rfl⟩ := List.mem_map.1 hx
          rw [repoint_id]
          exact hwf.idsLt y (hrestsub y hy)
        · intro x hx
          obtain ⟨y, hy, rfl⟩ := List.mem_map.1 hx
          rw [repoint_size, repoint_hash]
          exact hwf.sizeEq y (hrestsub y hy)
        · intro x hx
          obtain ⟨y, hy, rfl⟩ := List.mem_map.1 hx
          rw [repoint_handle, repoint_hash]
          exact hwf.handleEq y (hrestsub y hy)
        · exact hwf.blobKeysNodup
        · exact hwf.blobContent
        · intro h
          rw [hhashes_pres, hhash_iff h]
          exact hwf.blobIff h
        · show st.stats.total_files - 1
              = ((st.records.filter (fun x => !(x.id == r0.id))).map
                  (repoint r0.content_hash newOrig.id)).length
          rw [List.length_map]
          omega
        · show st.stats.total_unique_files
              = (hashesOf ((st.records.filter (fun x => !(x.id == r0.id))).map
                  (repoint r0.content_hash newOrig.id))).toFinset.card
          rw [hhashes_pres, hfinseteq]
          exact hwf.statUnique
        · show st.stats.total_storage_used
              = ∑ h ∈ (hashesOf ((st.records.filter
                  (fun x => !(x.id == r0.id))).map
                  (repoint r0.content_hash newOrig.id))).toFinset, h.length
          rw [hhashes_pres, hfinseteq]
          exact hwf.statUsed
        · show st.stats.total_storage_used
              + (st.stats.total_storage_saved - r0.size)
              = (((st.records.filter (fun x => !(x.id == r0.id))).map
                  (repoint r0.content_hash newOrig.id)).map (·.size)).sum
          rw [hsizes_pres]
          omega
        · intro h
          by_cases hh : h = r0.content_hash
          · subst hh
            unfold OriginalOk
            rw [hfmcomm]
            cases hclseq : (st.records.filter (fun x => !(x.id == r0.id))).filter
                (fun x => x.content_hash == r0.content_hash) with
            | nil => rw [hclseq] at hcls; cases hcls
            | cons c ct =>
              rw [hclseq] at hcls
              simp only [List.head?_cons, Option.some.injEq] at hcls
              subst hcls
              have hclssub : (c :: ct).Sublist st.records := by
                rw [← hclseq]
                exact (List.filter_sublist _).trans (List.filter_sublist _)
              have hclsnodup : ((c :: ct).map (·.id)).Nodup :=
                (hclssub.map (·.id)).nodup hwf.idsNodup
              have hchash : c.content_hash = r0.content_hash := by
                have : c ∈ (st.records.filter (fun x => !(x.id == r0.id))).filter
                    (fun x => x.content_hash == r0.content_hash) := by
                  rw [hclseq]; exact List.mem_cons_self _ _
                have := (List.mem_filter.1 this).2
                simpa using this
              rw [List.map_cons, repoint_self _ _ c hchash rfl]
              refine ⟨rfl, ?_⟩
              intro x hx
              obtain ⟨y, hy, rfl⟩ := List.mem_map.1 hx
              have hyhash : y.content_hash = r0.content_hash := by
                have hymem : y ∈ (st.records.filter
                    (fun x => !(x.id == r0.id))).filter
                      (fun x => x.content_hash == r0.content_hash) := by
                  rw [hclseq]; exact List.mem_cons_of_mem c hy
                have := (List.mem_filter.1 hymem).2
                simpa using this
              have hyid : y.id ≠ c.id := by
                simp only [List.map_cons, List.nodup_cons] at hclsnodup
                intro hid
                exact hclsnodup.1 (hid ▸ List.mem_map_of_mem (·.id) hy)
              rw [repoint_other _ _ y hyhash hyid]
          · unfold OriginalOk
            rw [hfmcomm]
            have hrec : (st.records.filter (fun x => !(x.id == r0.id))).filter
                (fun x => x.content_hash == h)
                  = st.records.filter (fun x => x.content_hash == h) :=
              filter_hash_rest_eq hwf.idsNodup hr0mem hh
            rw [hrec]
            have hmapid : (st.records.filter (fun x => x.content_hash == h)).map
                (repoint r0.content_hash newOrig.id)
                  = st.records.filter (fun x => x.content_hash == h) := by
              have := List.map_congr_left (l := st.records.filter
                  (fun x => x.content_hash == h))
                  (f := repoint r0.content_hash newOrig.id) (g := id)
                  (fun x hx => by
                    have hxh : x.content_hash = h := by
                      have := (List.mem_filter.1 hx).2
                      simpa using this
                    exact repoint_of_hash_ne _ _ x (by rw [hxh]; exact hh))
              rw [this, List.map_id]
            rw [hmapid]
            exact hwf.origOk h

theorem reachable_wf {st : CatalogState} (h : Reachable st) : WF st := by
  induction h with
  | initial => exact wf_init
  | ingestStep st bytes fn ok r st' hr hok ih => exact wf_ingest ih hok
  | deleteStep st i st' hr hok ih => exact wf_delete ih hok

theorem passes_true {γ : Type _} (o : Option γ) (f : γ → Bool) :
    passes o f = true ↔ ∀ a, o = some a → f a = true := by
  cases o <;> simp [passes]

theorem matchesFilter_iff (q : FilterQuery) (r : FileRecord) :
    matchesFilter q r = true ↔
      ((∀ s, q.search = some s → containsCI r.original_filename s = true) ∧
       (∀ t, q.fileType = some t → r.file_type = t) ∧
       (∀ m, q.minSize = some m → m ≤ r.size) ∧
       (∀ m, q.maxSize = some m → r.size ≤ m) ∧
       (∀ d, q.startDate = some d → d ≤ r.uploaded_at) ∧
       (∀ d, q.endDate = some d → r.uploaded_at ≤ d) ∧
       (∀ b, q.isDuplicate = some b → r.is_duplicate = b)) := by
  unfold matchesFilter
  simp only [Bool.and_eq_true, passes_true, beq_iff_eq, decide_eq_true_eq]
  tauto

theorem mem_query_iff (q : FilterQuery) (st : CatalogState) (r : FileRecord) :
    r ∈ query q st ↔ r ∈ st.records ∧ matchesFilter q r = true := by
  unfold query
  rw [(List.perm_insertionSort _ _).mem_iff, List.mem_filter]

theorem emptyQuery_matches (r : FileRecord) :
    matchesFilter {} r = true := rfl

theorem query_empty_perm (st : CatalogState) :
    (query {} st).Perm st.records := by
  unfold query
  have hfe : st.records.filter (matchesFilter {}) = st.records :=
    List.filter_eq_self.2 (fun a _ => emptyQuery_matches a)
  rw [hfe]
  exact List.perm_insertionSort _ _

theorem query_empty_sorted (st : CatalogState) :
    (query {} st).Pairwise (fun a b =>
      b.uploaded_at < a.uploaded_at
        ∨ (a.uploaded_at = b.uploaded_at ∧ a.id ≤ b.id)) := by
  unfold query
  haveI htot : IsTotal FileRecord
      (fun a b => orderingLe ({} : FilterQuery).ordering a b = true) := by
    constructor
    intro a b
    show defaultLe a b = true ∨ defaultLe b a = true
    unfold defaultLe
    simp only [Bool.or_eq_true, Bool.and_eq_true, decide_eq_true_eq]
    omega
  haveI htrans : IsTrans FileRecord
      (fun a b => orderingLe ({} : FilterQuery).ordering a b = true) := by
    constructor
    intro a b c hab hbc
    show defaultLe a c = true
    have hab' : defaultLe a b = true := hab
    have hbc' : defaultLe b c = true := hbc
    unfold defaultLe at hab' hbc' ⊢
    simp only [Bool.or_eq_true, Bool.and_eq_true, decide_eq_true_eq] at hab' hbc' ⊢
    omega
  have hs := List.sorted_insertionSort
    (fun a b => orderingLe ({} : FilterQuery).ordering a b = true)
    (st.records.filter (matchesFilter {}))
  refine hs.imp ?_
  intro a b hab
  have hab' : defaultLe a b = true := hab
  unfold defaultLe at hab'
  simp only [Bool.or_eq_true, Bool.and_eq_true, decide_eq_true_eq] at hab'
  omega

theorem mem_fileTypes_iff (recs : List FileRecord) (t : String) :
    t ∈ fileTypes recs ↔ ∃ x ∈ recs, x.file_type = t := by
  unfold fileTypes
  rw [(List.perm_insertionSort _ _).mem_iff, List.mem_dedup, List.mem_map]

theorem count_key_one {blobs : List (List Nat × List Nat)} {H : List Nat}
    (hn : (blobs.map Prod.fst).Nodup) (hmem : H ∈ blobs.map Prod.fst) :
    blobs.countP (fun p => p.1 == H) = 1 := by
  induction blobs with
  | nil => simp at hmem
  | cons a t ih =>
    simp only [List.map_cons, List.nodup_cons, List.mem_cons] at hn hmem
    by_cases ha : a.1 = H
    · have hpa : (fun p : List Nat × List Nat => p.1 == H) a = true := by
        simp [ha]
      rw [List.countP_cons_of_pos (fun p : List Nat × List Nat => p.1 == H) t hpa]
      have hzero : t.countP (fun p => p.1 == H) = 0 := by
        refine List.countP_eq_zero.2 (fun p hp hbeq => ?_)
        have hpH : p.1 = H := beq_iff_eq.1 hbeq
        exact hn.1 (by rw [ha, ← hpH]; exact List.mem_map_of_mem Prod.fst hp)
      omega
    · have hpa : (fun p : List Nat × List Nat => p.1 == H) a = false := by
        simp [ha]
      rw [List.countP_cons_of_neg (fun p : List Nat × List Nat => p.1 == H) t (by simp [hpa])]
      refine ih hn.2 ?_
      rcases hmem with h | h
      · exact absurd h.symm ha
      · exact h

theorem ingest_ok_basic {st : CatalogState} {bytes : List Nat} {fn : String}
    {ok : Bool} {r : FileRecord} {st' : CatalogState}
    (h : ingest st bytes fn ok = .ok (r, st')) :
    r.content_hash = contentHash bytes ∧ r.id = st.nextId ∧
    st'.records = st.records ++ [r] ∧
    (st'.blobs = st.blobs ∨ st'.blobs = st.blobs ++ [(contentHash bytes, bytes)]) ∧
    st'.stats.total_files = st.stats.total_files + 1 := by
  simp only [ingest, tryIngest, findByHash, contentHash] at h ⊢
  cases hfind : st.records.find? (fun x => x.content_hash == bytes) with
  | some orig =>
    rw [hfind] at h
    simp only [Except.ok.injEq, Prod.mk.injEq] at h
    obtain ⟨hr, hst⟩ := h
    subst hst
    subst hr
    exact ⟨rfl, rfl, rfl, Or.inl rfl, rfl⟩
  | none =>
    rw [hfind] at h
    cases ok with
    | false => simp at h
    | true =>
      simp only [if_true, Except.ok.injEq, Prod.mk.injEq] at h
      obtain ⟨hr, hst⟩ := h
      subst hst
      subst hr
      exact ⟨rfl, rfl, rfl, Or.inr rfl, rfl⟩

theorem ingest_dup_branch {st : CatalogState} {bytes : List Nat} {fn : String}
    {ok : Bool} {r : FileRecord} {st' : CatalogState} {orig : FileRecord}
    (hfind : st.records.find? (fun x => x.content_hash == contentHash bytes)
      = some orig)
    (h : ingest st bytes fn ok = .ok (r, st')) :
    r.is_duplicate = true ∧ r.original_file = some orig.id ∧
    r.storage_handle = orig.storage_handle ∧ st'.blobs = st.blobs := by
  simp only [contentHash] at hfind
  simp only [ingest, tryIngest, findByHash, contentHash, hfind] at h
  simp only [Except.ok.injEq, Prod.mk.injEq] at h
  obtain ⟨hr, hst⟩ := h
  subst hst
  subst hr
  exact ⟨rfl, rfl, rfl, rfl⟩

theorem ingest_new_branch {st : CatalogState} {bytes : List Nat} {fn : String}
    {r : FileRecord} {st' : CatalogState}
    (hfind : st.records.find? (fun x => x.content_hash == contentHash bytes)
      = none)
    (h : ingest st bytes fn true = .ok (r, st')) :
    r.is_duplicate = false ∧ r.original_file = none ∧
    r.storage_handle = contentHash bytes ∧
    st'.blobs = st.blobs ++ [(contentHash bytes, bytes)] := by
  simp only [contentHash] at hfind ⊢
  simp only [ingest, tryIngest, findByHash, contentHash, hfind] at h
  simp only [if_true, Except.ok.injEq, Prod.mk.injEq] at h
  obtain ⟨hr, hst⟩ := h
  subst hst
  subst hr
  exact ⟨rfl, rfl, rfl, rfl⟩

theorem ingest_storage_error {st : CatalogState} {bytes : List Nat}
    {fn : String}
    (hfind : st.records.find? (fun x => x.content_hash == contentHash bytes)
      = none) :
    ingest st bytes fn false = .error .storageError := by
  simp only [contentHash] at hfind
  simp only [ingest, tryIngest, findByHash, contentHash, hfind]
  rfl

theorem ingest_no_race {st : CatalogState} {bytes : List Nat} {fn : String}
    {ok : Bool} :
    ingest st bytes fn ok ≠ .error .duplicateRaceRetry := by
  simp only [ingest, tryIngest, findByHash, contentHash]
  cases hfind : st.records.find? (fun x => x.content_hash == bytes) with
  | some orig => simp
  | none =>
    cases ok with
    | false => simp
    | true => simp [hfind]

theorem ingestRetrying_no_race {st : CatalogState} {bytes : List Nat}
    {fn : String} {view : List FileRecord} {ok : Bool} :
    ingestRetrying st bytes fn view ok ≠ .error .duplicateRaceRetry := by
  unfold ingestRetrying
  cases h : tryIngest st bytes fn view ok with
  | ok p => simp
  | error e =>
    cases e with
    | storageError => simp
    | duplicateRaceRetry => exact ingest_no_race

theorem find?_id_eq_some {recs : List FileRecord} {A : FileRecord}
    (hn : (recs.map (·.id)).Nodup) (hA : A ∈ recs) :
    recs.find? (fun x => x.id == A.id) = some A := by
  cases hf : recs.find? (fun x => x.id == A.id) with
  | none =>
    exfalso
    have := List.find?_eq_none.1 hf A hA
    simp at this
  | some A' =>
    have hmem := List.mem_of_find?_eq_some hf
    have hid : A'.id = A.id := by
      have := List.find?_some hf
      exact beq_iff_eq.1 this
    rw [List.inj_on_of_nodup_map hn hmem hA hid]

theorem reachable_stScenario1 : Reachable stScenario1 :=
  Reachable.ingestStep initState bytes10 "a.txt" true rScenario1 stScenario1
    Reachable.initial rfl

theorem reachable_stScenario2 : Reachable stScenario2 :=
  Reachable.ingestStep stScenario1 bytes10 "b.txt" true rScenario2 stScenario2
    reachable_stScenario1 rfl

/-- C1: content addressing is idempotent and content-only — the modelled hash
is a function of the bytes alone, so two uploads of the same bytes under any
two filenames from any reachable state yield records with the same
`content_hash` and the same `storage_handle`, the second record is marked
`is_duplicate`, and exactly one physical blob for those bytes is stored in
the BlobStore. -/
theorem upload_twice_content_addressing
    (st : CatalogState) (hst : Reachable st) (B : List Nat) (f1 f2 : String)
    (r1 : FileRecord) (st1 : CatalogState) (r2 : FileRecord)
    (st2 : CatalogState)
    (h1 : ingest st B f1 true = .ok (r1, st1))
    (h2 : ingest st1 B f2 true = .ok (r2, st2)) :
    r1.content_hash = contentHash B ∧ r2.content_hash = contentHash B ∧
    r1.storage_handle = r2.storage_handle ∧ r2.is_duplicate = true ∧
    st2.blobs.countP (fun p => p.1 == contentHash B) = 1 := by
  have hwf := reachable_wf hst
  have hwf1 := wf_ingest hwf h1
  have hwf2 := wf_ingest hwf1 h2
  obtain ⟨hh1, hid1, hrec1, _, _⟩ := ingest_ok_basic h1
  obtain ⟨hh2, hid2, hrec2, _, _⟩ := ingest_ok_basic h2
  have hr1mem1 : r1 ∈ st1.records := by rw [hrec1]; simp
  have hr1mem2 : r1 ∈ st2.records := by
    rw [hrec2]; exact List.mem_append_left _ hr1mem1
  have hr2mem2 : r2 ∈ st2.records := by rw [hrec2]; simp
  have hhd1 : r1.storage_handle = r1.content_hash := hwf2.handleEq r1 hr1mem2
  have hhd2 : r2.storage_handle = r2.content_hash := hwf2.handleEq r2 hr2mem2
  have hpres : contentHash B ∈ hashesOf st1.records :=
    mem_hashesOf.2 ⟨r1, hr1mem1, hh1⟩
  have hfind2 : ∃ orig,
      st1.records.find? (fun x => x.content_hash == contentHash B)
        = some orig := by
    have hsome : (st1.records.find?
        (fun x => x.content_hash == contentHash B)).isSome := by
      rw [List.find?_isSome]
      exact ⟨r1, hr1mem1, by simp [hh1]⟩
    exact Option.isSome_iff_exists.1 hsome
  obtain ⟨orig, hfind2⟩ := hfind2
  obtain ⟨hdup, _, _, hblobs2⟩ := ingest_dup_branch hfind2 h2
  refine ⟨hh1, hh2, ?_, hdup, ?_⟩
  · rw [hhd1, hhd2, hh1, hh2]
  · rw [hblobs2]
    exact count_key_one hwf1.blobKeysNodup ((hwf1.blobIff _).2 hpres)

/-- C1 witness: the two concrete uploads of the same ten bytes as `a.txt`
then `b.txt` from the empty catalog. -/
theorem upload_twice_content_addressing_witness :
    rScenario1.content_hash = contentHash bytes10 ∧
    rScenario2.content_hash = contentHash bytes10 ∧
    rScenario1.storage_handle = rScenario2.storage_handle ∧
    rScenario2.is_duplicate = true ∧
    stScenario2.blobs.countP (fun p => p.1 == contentHash bytes10) = 1 :=
  upload_twice_content_addressing initState Reachable.initial bytes10
    "a.txt" "b.txt" rScenario1 stScenario1 rScenario2 stScenario2 rfl rfl

/-- C2: in every reachable state the stats aggregate matches the catalog —
`total_files` is the number of FileRecords, `total_unique_files` the number
of distinct content hashes referenced by at least one record,
`total_storage_used + total_storage_saved` the sum of all record sizes, and
`total_unique_files` never exceeds `total_files`. -/
theorem stats_invariant (st : CatalogState) (hst : Reachable st) :
    st.stats.total_files = st.records.length ∧
    st.stats.total_unique_files = ((hashesOf st.records).toFinset).card ∧
    st.stats.total_storage_used + st.stats.total_storage_saved
      = (st.records.map (·.size)).sum ∧
    st.stats.total_unique_files ≤ st.stats.total_files := by
  have hwf := reachable_wf hst
  refine ⟨hwf.statFiles, hwf.statUnique, hwf.statSum, ?_⟩
  rw [hwf.statUnique, hwf.statFiles]
  calc ((hashesOf st.records).toFinset).card
      ≤ (hashesOf st.records).length := List.toFinset_card_le _
    _ = st.records.length := by simp [hashesOf]

/-- C2 witness: the stats aggregate after the two concrete uploads. -/
theorem stats_invariant_witness :
    stScenario2.stats.total_files = stScenario2.records.length ∧
    stScenario2.stats.total_unique_files
      = ((hashesOf stScenario2.records).toFinset).card ∧
    stScenario2.stats.total_storage_used
        + stScenario2.stats.total_storage_saved
      = (stScenario2.records.map (·.size)).sum ∧
    stScenario2.stats.total_unique_files ≤ stScenario2.stats.total_files :=
  stats_invariant stScenario2 reachable_stScenario2

/-- C3: deleting the designated original for hash `H` while other records
with `H` survive succeeds, leaves the earliest survivor as the new original
(`original_file = none`), repoints every other surviving record of `H` to
it, and keeps the physical blob; deleting the last record for `H` succeeds,
removes the blob, removes `H` from the catalog, decrements
`total_unique_files`, subtracts the size from `total_storage_used`, and the
`fileTypes()` facet reflects only the surviving records. -/
theorem delete_reconciliation (st : CatalogState) (hst : Reachable st) :
    (∀ A B, A ∈ st.records → B ∈ st.records → A.original_file = none →
      B.content_hash = A.content_hash → B.id ≠ A.id →
      ∃ st', deleteRecord st A.id = .ok st' ∧
        (st'.records.filter
          (fun x => x.content_hash == A.content_hash)) ≠ [] ∧
        (∀ hd, (st'.records.filter
            (fun x => x.content_hash == A.content_hash)).head? = some hd →
          hd.original_file = none ∧
          ∀ x ∈ st'.records.filter
              (fun x => x.content_hash == A.content_hash),
            x.id ≠ hd.id → x.original_file = some hd.id) ∧
        A.content_hash ∈ st'.blobs.map Prod.fst) ∧
    (∀ A, A ∈ st.records →
      (∀ B ∈ st.records, B.content_hash = A.content_hash → B.id = A.id) →
      ∃ st', deleteRecord st A.id = .ok st' ∧
        A.content_hash ∉ st'.blobs.map Prod.fst ∧
        (∀ x ∈ st'.records, x.content_hash ≠ A.content_hash) ∧
        st'.stats.total_unique_files = st.stats.total_unique_files - 1 ∧
        st'.stats.total_storage_used = st.stats.total_storage_used - A.size ∧
        (∀ t, t ∈ fileTypes st'.records ↔
          ∃ x ∈ st'.records, x.file_type = t)) := by
  have hwf := reachable_wf hst
  constructor
  · intro A B hA hB hAorig hBhash hBid
    have hfind : st.records.find? (fun x => x.id == A.id) = some A :=
      find?_id_eq_some hwf.idsNodup hA
    have hBrest : B ∈ st.records.filter (fun x => !(x.id == A.id)) :=
      List.mem_filter.2 ⟨hB, by simp [hBid]⟩
    have hBcls : B ∈ (st.records.filter (fun x => !(x.id == A.id))).filter
        (fun x => x.content_hash == A.content_hash) :=
      List.mem_filter.2 ⟨hBrest, by simp [hBhash]⟩
    cases hcls : ((st.records.filter (fun x => !(x.id == A.id))).filter
        (fun x => x.content_hash == A.content_hash)).head? with
    | none =>
      exfalso
      rw [List.head?_eq_none_iff.1 hcls] at hBcls
      cases hBcls
    | some newOrig =>
      have hok : deleteRecord st A.id = .ok
          { records := (st.records.filter (fun x => !(x.id == A.id))).map
              (repoint A.content_hash newOrig.id)
            blobs := st.blobs
            stats := { total_files := st.stats.total_files - 1
                       total_unique_files := st.stats.total_unique_files
                       total_storage_used := st.stats.total_storage_used
                       total_storage_saved :=
                         st.stats.total_storage_saved - A.size
                       last_updated := st.clock }
            nextId := st.nextId, clock := st.clock + 1 } := by
        simp only [deleteRecord, hfind, hcls, hAorig, Option.isNone_none,
          if_true]
      have hwf' := wf_delete hwf hok
      refine ⟨_, hok, ?_, ?_, ?_⟩
      · intro hnil
        have hBimg : repoint A.content_hash newOrig.id B
            ∈ (st.records.filter (fun x => !(x.id == A.id))).map
              (repoint A.content_hash newOrig.id) :=
          List.mem_map_of_mem _ hBrest
        have : repoint A.content_hash newOrig.id B
            ∈ ((st.records.filter (fun x => !(x.id == A.id))).map
              (repoint A.content_hash newOrig.id)).filter
                (fun x => x.content_hash == A.content_hash) :=
          List.mem_filter.2 ⟨hBimg, by simp [repoint_hash, hBhash]⟩
        rw [hnil] at this
        cases this
      · intro hd hhd
        have horig := hwf'.origOk A.content_hash
        unfold OriginalOk at horig
        cases hcf : ((st.records.filter (fun x => !(x.id == A.id))).map
            (repoint A.content_hash newOrig.id)).filter
              (fun x => x.content_hash == A.content_hash) with
        | nil =>
          rw [hcf] at hhd
          cases hhd
        | cons first others =>
          rw [hcf] at hhd horig
          simp only [List.head?_cons, Option.some.injEq] at hhd
          subst hhd
          refine ⟨horig.1, ?_⟩
          intro x hx hxid
          rcases List.mem_cons.1 hx with hx | hx
          · exact absurd (hx ▸ rfl) hxid
          · exact horig.2 x hx
      · refine (hwf'.blobIff _).2 (mem_hashesOf.2 ?_)
        refine ⟨repoint A.content_hash newOrig.id B, ?_, ?_⟩
        · exact List.mem_map_of_mem _ hBrest
        · rw [repoint_hash, hBhash]
  · intro A hA honly
    have hfind : st.records.find? (fun x => x.id == A.id) = some A :=
      find?_id_eq_some hwf.idsNodup hA
    have hclsnil : ((st.records.filter (fun x => !(x.id == A.id))).filter
        (fun x => x.content_hash == A.content_hash)) = [] := by
      refine List.eq_nil_iff_forall_not_mem.2 (fun x hx => ?_)
      obtain ⟨hxrest, hxh⟩ := List.mem_filter.1 hx
      obtain ⟨hxm, hxid⟩ := List.mem_filter.1 hxrest
      have hxh' : x.content_hash = A.content_hash := by simpa using hxh
      have hxid' : x.id ≠ A.id := by simpa using hxid
      exact hxid' (honly x hxm hxh')
    have hok : deleteRecord st A.id = .ok
        { records := st.records.filter (fun x => !(x.id == A.id))
          blobs := st.blobs.filter (fun p => !(p.1 == A.content_hash))
          stats := { total_files := st.stats.total_files - 1
                     total_unique_files := st.stats.total_unique_files - 1
                     total_storage_used :=
                       st.stats.total_storage_used - A.size
                     total_storage_saved := st.stats.total_storage_saved
                     last_updated := st.clock }
          nextId := st.nextId, clock := st.clock + 1 } := by
      simp only [deleteRecord, hfind, hclsnil, List.head?_nil]
    refine ⟨_, hok, ?_, ?_, rfl, rfl, fun t => mem_fileTypes_iff _ t⟩
    · intro hmem
      obtain ⟨p, hp, hfst⟩ := List.mem_map.1 hmem
      obtain ⟨hpb, hpne⟩ := List.mem_filter.1 hp
      rw [hfst] at hpne
      simp at hpne
    · intro x hx hxh
      obtain ⟨hxm, hxid⟩ := List.mem_filter.1 hx
      have hxid' : x.id ≠ A.id := by simpa using hxid
      exact hxid' (honly x hxm hxh)

/-- C3 witness: from the two-upload state, deleting the original `a.txt`
record leaves the `b.txt` record as the new original with the blob kept;
from the one-upload state, deleting the only record removes the blob. -/
theorem delete_reconciliation_witness :
    (∃ st', deleteRecord stScenario2 rScenario1.id = .ok st' ∧
      (st'.records.filter
        (fun x => x.content_hash == rScenario1.content_hash)) ≠ [] ∧
      (∀ hd, (st'.records.filter
          (fun x => x.content_hash == rScenario1.content_hash)).head?
            = some hd →
        hd.original_file = none ∧
        ∀ x ∈ st'.records.filter
            (fun x => x.content_hash == rScenario1.content_hash),
          x.id ≠ hd.id → x.original_file = some hd.id) ∧
      rScenario1.content_hash ∈ st'.blobs.map Prod.fst) ∧
    (∃ st', deleteRecord stScenario1 rScenario1.id = .ok st' ∧
      rScenario1.content_hash ∉ st'.blobs.map Prod.fst ∧
      (∀ x ∈ st'.records, x.content_hash ≠ rScenario1.content_hash) ∧
      st'.stats.total_unique_files
        = stScenario1.stats.total_unique_files - 1 ∧
      st'.stats.total_storage_used
        = stScenario1.stats.total_storage_used - rScenario1.size ∧
      (∀ t, t ∈ fileTypes st'.records ↔
        ∃ x ∈ st'.records, x.file_type = t)) :=
  ⟨(delete_reconciliation stScenario2 reachable_stScenario2).1 rScenario1
      rScenario2 (by decide) (by decide) (by decide) (by decide) (by decide),
   (delete_reconciliation stScenario1 reachable_stScenario1).2 rScenario1
      (by decide) (by decide)⟩

/-- C4: in every reachable state the saved percentage equals the specified
formula, lies in `[0, 100)`, and the concrete two-upload scenario produces
exactly the stats and the 50 percent of the spec. -/
theorem percentage_bounds_and_scenario :
    (∀ st : CatalogState, Reachable st →
      storageSavedPercentage st.stats
        = (if st.stats.total_storage_used + st.stats.total_storage_saved = 0
           then 0
           else (st.stats.total_storage_saved : ℚ)
             / ((st.stats.total_storage_used : ℚ)
               + (st.stats.total_storage_saved : ℚ)) * 100) ∧
      0 ≤ storageSavedPercentage st.stats ∧
      storageSavedPercentage st.stats < 100) ∧
    (stScenario1.stats.total_files = 1 ∧
     stScenario1.stats.total_unique_files = 1 ∧
     stScenario1.stats.total_storage_used = 10 ∧
     stScenario1.stats.total_storage_saved = 0 ∧
     stScenario2.stats.total_files = 2 ∧
     stScenario2.stats.total_unique_files = 1 ∧
     stScenario2.stats.total_storage_used = 10 ∧
     stScenario2.stats.total_storage_saved = 10 ∧
     storageSavedPercentage stScenario2.stats = 50) := by
  constructor
  · intro st hst
    have hwf := reachable_wf hst
    refine ⟨rfl, ?_⟩
    have hzero : st.stats.total_storage_used = 0 →
        st.stats.total_storage_saved = 0 := by
      intro hu
      have husum := hwf.statUsed
      have hssum := hwf.statSum
      rw [hu] at husum hssum
      have hfin : ∀ h ∈ (hashesOf st.records).toFinset, h.length = 0 :=
        Finset.sum_eq_zero_iff.1 husum.symm
      have hsz : ∀ v ∈ st.records.map (·.size), v = 0 := by
        intro v hv
        obtain ⟨x, hx, rfl⟩ := List.mem_map.1 hv
        rw [hwf.sizeEq x hx]
        exact hfin x.content_hash
          (List.mem_toFinset.2 (mem_hashesOf.2 ⟨x, hx, rfl⟩))
      have hs0 : (st.records.map (·.size)).sum = 0 :=
        List.sum_eq_zero_iff.2 hsz
      omega
    unfold storageSavedPercentage
    by_cases hden : st.stats.total_storage_used
        + st.stats.total_storage_saved = 0
    · rw [if_pos hden]
      norm_num
    · rw [if_neg hden]
      have hu : 0 < st.stats.total_storage_used := by
        have : st.stats.total_storage_used ≠ 0 := by
          intro h0
          have := hzero h0
          omega
        omega
      have huq : (0 : ℚ) < (st.stats.total_storage_used : ℚ) := by
        exact_mod_cast hu
      have hsq : (0 : ℚ) ≤ (st.stats.total_storage_saved : ℚ) :=
        Nat.cast_nonneg _
      have hposden : (0 : ℚ) < (st.stats.total_storage_used : ℚ)
          + (st.stats.total_storage_saved : ℚ) := by linarith
      constructor
      · exact mul_nonneg (div_nonneg hsq hposden.le) (by norm_num)
      · have hlt : (st.stats.total_storage_saved : ℚ)
            / ((st.stats.total_storage_used : ℚ)
              + (st.stats.total_storage_saved : ℚ)) < 1 :=
          (div_lt_one hposden).2 (by linarith)
        calc (st.stats.total_storage_saved : ℚ)
            / ((st.stats.total_storage_used : ℚ)
              + (st.stats.total_storage_saved : ℚ)) * 100
            < 1 * 100 := by
              exact mul_lt_mul_of_pos_right hlt (by norm_num)
          _ = 100 := one_mul 100
  · refine ⟨rfl, rfl, rfl, rfl, rfl, rfl, rfl, rfl, ?_⟩
    have h2 : stScenario2.stats
        = { total_files := 2, total_unique_files := 1
            total_storage_used := 10, total_storage_saved := 10
            last_updated := 1 } := rfl
    rw [h2]
    unfold storageSavedPercentage
    norm_num

/-- C4 witness: the bounds applied to the reachable empty catalog. -/
theorem percentage_bounds_witness :
    0 ≤ storageSavedPercentage initState.stats ∧
    storageSavedPercentage initState.stats < 100 := by
  have h := percentage_bounds_and_scenario.1 initState Reachable.initial
  exact ⟨h.2.1, h.2.2⟩

/-- C5: ingest is atomic on failure — if the BlobStore write fails on new
content the operation surfaces `StorageError` and commits nothing (the state
monadically stays with the caller); on success the FileRecord insert, the
blob presence and the stats update all hold together; and the retry wrapper
never surfaces `DuplicateRaceRetry`, whatever stale snapshot the losing
writer read. -/
theorem ingest_transactional (st : CatalogState) (hst : Reachable st)
    (bytes : List Nat) (fn : String) :
    (st.records.find? (fun x => x.content_hash == contentHash bytes) = none →
      ingest st bytes fn false = .error .storageError) ∧
    (∀ ok r st', ingest st bytes fn ok = .ok (r, st') →
      r ∈ st'.records ∧ contentHash bytes ∈ st'.blobs.map Prod.fst ∧
      st'.stats.total_files = st.stats.total_files + 1) ∧
    (∀ view ok, ingestRetrying st bytes fn view ok
      ≠ .error .duplicateRaceRetry) := by
  refine ⟨fun hfind => ingest_storage_error hfind, ?_,
    fun view ok => ingestRetrying_no_race⟩
  intro ok r st' h
  have hwf' := wf_ingest (reachable_wf hst) h
  obtain ⟨hh, _, hrec, _, hfiles⟩ := ingest_ok_basic h
  have hrm : r ∈ st'.records := by rw [hrec]; simp
  exact ⟨hrm, (hwf'.blobIff _).2 (mem_hashesOf.2 ⟨r, hrm, hh⟩), hfiles⟩

/-- C5 witness: a failing BlobStore write on the empty catalog surfaces
`StorageError`, and a retried race on a stale empty view never surfaces
`DuplicateRaceRetry`. -/
theorem ingest_transactional_witness :
    ingest initState [1, 2] "f.bin" false = .error .storageError ∧
    ingestRetrying initState [1, 2] "f.bin" [] true
      ≠ .error .duplicateRaceRetry := by
  have h := ingest_transactional initState Reachable.initial [1, 2] "f.bin"
  exact ⟨h.1 rfl, h.2.2 [] true⟩

/-- C6: query returns exactly the records satisfying the conjunction of all
present filter fields, and the empty FilterQuery returns the whole catalog
ordered by `uploaded_at` descending with `id` ascending as tie-break. -/
theorem query_conjunction_default_order (q : FilterQuery)
    (st : CatalogState) :
    (∀ r, r ∈ query q st ↔
      (r ∈ st.records ∧
       (∀ s, q.search = some s → containsCI r.original_filename s = true) ∧
       (∀ t, q.fileType = some t → r.file_type = t) ∧
       (∀ m, q.minSize = some m → m ≤ r.size) ∧
       (∀ m, q.maxSize = some m → r.size ≤ m) ∧
       (∀ d, q.startDate = some d → d ≤ r.uploaded_at) ∧
       (∀ d, q.endDate = some d → r.uploaded_at ≤ d) ∧
       (∀ b, q.isDuplicate = some b → r.is_duplicate = b))) ∧
    (query {} st).Perm st.records ∧
    (query {} st).Pairwise (fun a b =>
      b.uploaded_at < a.uploaded_at
        ∨ (a.uploaded_at = b.uploaded_at ∧ a.id ≤ b.id)) := by
  refine ⟨?_, query_empty_perm st, query_empty_sorted st⟩
  intro r
  rw [mem_query_iff, matchesFilter_iff]

/-- C6 witness: in the two-upload state the non-duplicate `txt` filter
admits the first record. -/
theorem query_conjunction_default_order_witness :
    rScenario1 ∈ query { fileType := some "txt", isDuplicate := some false }
      stScenario2 := by
  have h := (query_conjunction_default_order
    { fileType := some "txt", isDuplicate := some false } stScenario2).1
    rScenario1
  refine h.2 ⟨by decide, ?_, ?_, ?_, ?_, ?_, ?_, ?_⟩
  · intro s hs; cases hs
  · intro t ht
    cases ht
    decide
  · intro m hm; cases hm
  · intro m hm; cases hm
  · intro d hd; cases hd
  · intro d hd; cases hd
  · intro b hb
    cases hb
    decide

/-- C7: the upload/download round trip is the identity on content — from any
reachable state, ingesting bytes and downloading the returned record's id
yields exactly those bytes. -/
theorem upload_download_roundtrip (st : CatalogState) (hst : Reachable st)
    (bytes : List Nat) (fn : String) (r : FileRecord) (st' : CatalogState)
    (h : ingest st bytes fn true = .ok (r, st')) :
    download st' r.id = some bytes := by
  have hwf := reachable_wf hst
  have hwf' := wf_ingest hwf h
  obtain ⟨hh, hid, hrec, _, _⟩ := ingest_ok_basic h
  have hrm : r ∈ st'.records := by rw [hrec]; simp
  unfold download
  have hnone : st.records.find? (fun x => x.id == r.id) = none := by
    refine List.find?_eq_none.2 (fun x hx => ?_)
    have := hwf.idsLt x hx
    simp only [beq_iff_eq]
    rw [hid]
    omega
  have hfind : st'.records.find? (fun x => x.id == r.id) = some r := by
    rw [hrec, List.find?_append, hnone]
    simp
  rw [hfind]
  have hhb : r.storage_handle = bytes := by
    rw [hwf'.handleEq r hrm, hh]
    rfl
  have hkey : bytes ∈ st'.blobs.map Prod.fst :=
    (hwf'.blobIff _).2 (mem_hashesOf.2 ⟨r, hrm, hh⟩)
  have hsome : (st'.blobs.find?
      (fun p => p.1 == r.storage_handle)).isSome := by
    rw [List.find?_isSome]
    obtain ⟨p, hp, hfst⟩ := List.mem_map.1 hkey
    exact ⟨p, hp, by simp [hfst, hhb]⟩
  obtain ⟨p, hp⟩ := Option.isSome_iff_exists.1 hsome
  show Option.map Prod.snd (st'.blobs.find?
    (fun p => p.1 == r.storage_handle)) = some bytes
  rw [hp]
  have hpm := List.mem_of_find?_eq_some hp
  have hp1 : p.1 = r.storage_handle := by
    have := List.find?_some hp
    exact beq_iff_eq.1 this
  have hp2 : p.2 = p.1 := hwf'.blobContent p hpm
  simp [hp2, hp1, hhb]

/-- C7 witness: the concrete ten-byte upload round-trips from the empty
catalog. -/
theorem upload_download_roundtrip_witness :
    download stScenario1 rScenario1.id = some bytes10 :=
  upload_download_roundtrip initState Reachable.initial bytes10 "a.txt"
    rScenario1 stScenario1 rfl

/-- C8 counterexample: a FileFilter with `minSize = 0` — a set field — yields
no query parameters at all, so the claimed 1:1 mapping for boundary values
fails on the code (`if (filters.minSize)` is a JavaScript truthiness test
that drops 0). -/
theorem getFilesParams_minSize_zero_counterexample :
    getFilesParams { minSize := some 0 } = [] ∧
    ¬ ∃ v, ("min_size", v) ∈ getFilesParams { minSize := some 0 } := by
  refine ⟨rfl, ?_⟩
  rw [show getFilesParams { minSize := some 0 } = [] from rfl]
  simp

/-- C8 (amended): each FilterQuery field produces exactly its corresponding
query parameter when it is set to a truthy value (non-empty string, nonzero
number), and no parameter otherwise; `isDuplicate` alone is emitted whenever
set, including `false`. -/
theorem getFilesParams_truthy_mapping (f : FileFilter) :
    (getFilesParams f).filter (fun p => p.1 == "filename")
      = (if truthyStr f.filename then [("filename", f.filename.getD "")]
         else []) ∧
    (getFilesParams f).filter (fun p => p.1 == "file_type")
      = (if truthyStr f.fileType then [("file_type", f.fileType.getD "")]
         else []) ∧
    (getFilesParams f).filter (fun p => p.1 == "min_size")
      = (if truthyNat f.minSize then
          [("min_size", toString (f.minSize.getD 0))] else []) ∧
    (getFilesParams f).filter (fun p => p.1 == "max_size")
      = (if truthyNat f.maxSize then
          [("max_size", toString (f.maxSize.getD 0))] else []) ∧
    (getFilesParams f).filter (fun p => p.1 == "start_date")
      = (if truthyStr f.startDate then
          [("start_date", f.startDate.getD "")] else []) ∧
    (getFilesParams f).filter (fun p => p.1 == "end_date")
      = (if truthyStr f.endDate then [("end_date", f.endDate.getD "")]
         else []) ∧
    (getFilesParams f).filter (fun p => p.1 == "is_duplicate")
      = (match f.isDuplicate with
         | some b => [("is_duplicate", boolStr b)]
         | none => []) ∧
    (getFilesParams f).filter (fun p => p.1 == "search")
      = (if truthyStr f.search then [("search", f.search.getD "")]
         else []) ∧
    (getFilesParams f).filter (fun p => p.1 == "ordering")
      = (if truthyStr f.ordering then [("ordering", f.ordering.getD "")]
         else []) := by
  refine ⟨?_, ?_, ?_, ?_, ?_, ?_, ?_, ?_, ?_⟩ <;>
    (unfold getFilesParams) <;>
    [simp only [List.filter_append, apply_ite
        (List.filter (fun p : String × String => p.1 == "filename"))];
     simp only [List.filter_append, apply_ite
        (List.filter (fun p : String × String => p.1 == "file_type"))];
     simp only [List.filter_append, apply_ite
        (List.filter (fun p : String × String => p.1 == "min_size"))];
     simp only [List.filter_append, apply_ite
        (List.filter (fun p : String × String => p.1 == "max_size"))];
     simp only [List.filter_append, apply_ite
        (List.filter (fun p : String × String => p.1 == "start_date"))];
     simp only [List.filter_append, apply_ite
        (List.filter (fun p : String × String => p.1 == "end_date"))];
     simp only [List.filter_append, apply_ite
        (List.filter (fun p : String × String => p.1 == "is_duplicate"))];
     simp only [List.filter_append, apply_ite
        (List.filter (fun p : String × String => p.1 == "search"))];
     simp only [List.filter_append, apply_ite
        (List.filter (fun p : String × String => p.1 == "ordering"))]] <;>
    (cases f.isDuplicate <;> simp [List.filter_cons, List.filter_nil])

/-- C8 witness: a nonzero `minSize` produces exactly its `min_size`
parameter. -/
theorem getFilesParams_truthy_mapping_witness :
    (getFilesParams { minSize := some 5 }).filter
        (fun p => p.1 == "min_size")
      = [("min_size", toString (5 : Nat))] := by
  have h := (getFilesParams_truthy_mapping { minSize := some 5 }).2.2.1
  rw [h]
  rfl

/-- C9: the attachment filename defaults to the passed original filename; an
extension inferred from the content type is appended only when the filename
contains no dot, and a filename that already contains a dot is used
unchanged. -/
theorem download_filename_policy (filename ct : String) :
    (filename.toList.contains '.' = true →
      downloadFilename filename ct = filename) ∧
    (filename.toList.contains '.' = false →
      (∀ e, getExtensionFromContentType ct = some e →
        downloadFilename filename ct = filename ++ e) ∧
      (getExtensionFromContentType ct = none →
        downloadFilename filename ct = filename)) := by
  unfold downloadFilename
  constructor
  · intro h
    rw [if_pos h]
  · intro h
    rw [if_neg (by rw [h]; exact Bool.false_ne_true)]
    constructor
    · intro e he
      rw [he]
    · intro he
      rw [he]

/-- C9 witness: a dotted filename is kept unchanged, and a bare filename
gets the `.pdf` extension inferred from `application/pdf`. -/
theorem download_filename_policy_witness :
    downloadFilename "report.txt" "application/pdf" = "report.txt" ∧
    downloadFilename "report" "application/pdf" = "report" ++ ".pdf" := by
  refine ⟨(download_filename_policy "report.txt" "application/pdf").1
    (by decide), ?_⟩
  exact ((download_filename_policy "report" "application/pdf").2
    (by decide)).1 ".pdf" (by decide)

/-- C10: `formatBytes` is total on the byte counts the UI can receive — it
returns exactly `"0 Bytes"` at 0, and for every `1 ≤ b < 1024 ^ 5` the unit
index `Nat.log 1024 b` stays within the five-unit list, the chosen unit is
one of the listed units, and the output is a decimal with at most two
fraction digits followed by that unit. -/
theorem formatBytes_total_and_bounded :
    formatBytes 0 = "0 Bytes" ∧
    (∀ b, 1 ≤ b → b < 1024 ^ 5 →
      Nat.log 1024 b ≤ 4 ∧
      (["Bytes", "KB", "MB", "GB", "TB"].getD (Nat.log 1024 b) "")
        ∈ ["Bytes", "KB", "MB", "GB", "TB"] ∧
      formatBytes b = decimalString (hundredthsOf b) ++ " "
        ++ (["Bytes", "KB", "MB", "GB", "TB"].getD (Nat.log 1024 b) "")) := by
  constructor
  · rfl
  · intro b h1 h2
    have hlog : Nat.log 1024 b < 5 := Nat.log_lt_of_lt_pow (by omega) h2
    refine ⟨by omega, ?_, ?_⟩
    · have h5 : Nat.log 1024 b = 0 ∨ Nat.log 1024 b = 1 ∨
          Nat.log 1024 b = 2 ∨ Nat.log 1024 b = 3 ∨ Nat.log 1024 b = 4 := by
        omega
      rcases h5 with h5 | h5 | h5 | h5 | h5 <;> rw [h5] <;> simp
    · unfold formatBytes
      rw [if_neg (by simp; omega)]

/-- C10 witness: the index bound and unit at the concrete input 2048. -/
theorem formatBytes_total_and_bounded_witness :
    formatBytes 0 = "0 Bytes" ∧ Nat.log 1024 2048 ≤ 4 ∧
    (["Bytes", "KB", "MB", "GB", "TB"].getD (Nat.log 1024 2048) "")
      ∈ ["Bytes", "KB", "MB", "GB", "TB"] := by
  have h := formatBytes_total_and_bounded
  have h2 := h.2 2048 (by norm_num) (by norm_num)
  exact ⟨h.1, h2.1, h2.2.1⟩

end FileHub
